import Mathlib

/-!
Verification of the single-file web application `app.py` of the
website-scraper repository.  The Python source is shallowly embedded as
executable Lean definitions:

* pure string helpers model the corresponding Python `str` operations
  (`find`, `rfind`, slicing, lower-casing);
* `json.loads` (standard library, external to the repository) is modelled
  by `jsonLoads`, a recursive-descent parser for a `Json` value type.
  String escape sequences and non-integer numbers are not modelled; no
  theorem below depends on parsing such inputs, because every universal
  statement quantifies over the parser result;
* `re.sub` applied to the patterns of `spam_words_map` (all of the form
  case-insensitive `\b literal \b`) is modelled by `wordSub`, a
  left-to-right scanner over the character list that tracks whether the
  previous character of the original string is a word character (the
  lookbehind part of `\b`) and checks the trailing `\b` directly.  Word
  characters follow the ASCII reading of the regex class `\w`;
* network and UI effects (`requests.get`, `requests.post`,
  `BeautifulSoup` text extraction, pandas file parsing, streamlit
  widgets) are external collaborators: they enter the model as function
  parameters or `Option`-valued inputs, and exceptions raised by them are
  the `none` case.  Exception handling in the Python source (`try`/
  `except`) becomes case analysis on those options, so the embedded
  functions are total.
-/

/-! ## Generic list helpers (Python `str.find` / pandas column lookup) -/

/-- First index of an element in a list, as in Python `str.find` and
`list.index`; `none` plays the role of the `-1` result. -/
def listFind {α : Type} [BEq α] (x : α) : List α → Option Nat
  | [] => none
  | d :: ds => if d == x then some 0 else (listFind x ds).map (· + 1)

/-- Last index of an element in a list, as in Python `str.rfind`. -/
def listRFind {α : Type} [BEq α] (x : α) (l : List α) : Option Nat :=
  match listFind x l.reverse with
  | some i => some (l.length - 1 - i)
  | none => none

/-- Python slicing `text[:n]` on a string, by character count. -/
def pyTake (n : Nat) (s : String) : String := ⟨s.data.take n⟩

/-- Python `str.lower()` on the ASCII letters, as used by the pitch-type
dispatch of the source. -/
def pyLower (s : String) : String := ⟨s.data.map Char.toLower⟩

/-- Python `str.startswith`. -/
def pyStartsWith (s pre : String) : Bool := pre.data.isPrefixOf s.data

/-! ## JSON values and a model of `json.loads` -/

/-- JSON values.  Objects carry their fields as an association list in
insertion order, mirroring a Python `dict`. -/
inductive Json where
  | null
  | bool (b : Bool)
  | num (n : Int)
  | str (s : String)
  | arr (elems : List Json)
  | obj (fields : List (String × Json))

/-- Whitespace as accepted between JSON tokens. -/
def isJsonWs (c : Char) : Bool := c == ' ' || c == '\n' || c == '\t' || c == '\r'

/-- Drop leading JSON whitespace. -/
def skipWs : List Char → List Char
  | [] => []
  | c :: cs => if isJsonWs c then skipWs cs else c :: cs

/-- Read the body of a JSON string literal after its opening quote, up to
the closing quote.  Escape sequences are not modelled. -/
def parseStringLit : List Char → Option (String × List Char)
  | [] => none
  | c :: cs =>
    if c == '"' then some ("", cs)
    else (parseStringLit cs).map fun p => (⟨c :: p.1.data⟩, p.2)

/-- Consume an expected literal tail, such as `ull` after the `n` of
`null`. -/
def litRest : List Char → List Char → Option (List Char)
  | [], s => some s
  | _ :: _, [] => none
  | l :: ls, c :: cs => if c == l then litRest ls cs else none

/-- Split off a maximal run of leading decimal digits. -/
def spanDigits : List Char → List Char × List Char
  | [] => ([], [])
  | c :: cs =>
    if c.isDigit then
      let p := spanDigits cs
      (c :: p.1, p.2)
    else ([], c :: cs)

/-- Numeric value of a digit run. -/
def digitsToNat (l : List Char) : Nat := l.foldl (fun a c => a * 10 + (c.toNat - 48)) 0

/-- Insert a field into an object, replacing the value of an existing key
in place as a Python `dict` assignment does. -/
def dictInsert (d : List (String × Json)) (k : String) (v : Json) : List (String × Json) :=
  if d.any fun kv => kv.1 == k then d.map fun kv => if kv.1 == k then (k, v) else kv
  else d ++ [(k, v)]

/-- Collapse parsed object fields into a Python `dict`: later duplicate
keys overwrite earlier ones. -/
def toDict (l : List (String × Json)) : List (String × Json) :=
  l.foldl (fun d kv => dictInsert d kv.1 kv.2) []

mutual

/-- Parse one JSON value.  The fuel argument only bounds nesting depth;
`jsonLoads` supplies more fuel than any input can consume. -/
def parseVal : Nat → List Char → Option (Json × List Char)
  | 0, _ => none
  | Nat.succ fuel, s =>
    match skipWs s with
    | [] => none
    | c :: cs =>
      if c == '\x7b' then
        (parseObjBody fuel cs true).map fun p => (Json.obj (toDict p.1), p.2)
      else if c == '[' then
        (parseArrBody fuel cs true).map fun p => (Json.arr p.1, p.2)
      else if c == '"' then (parseStringLit cs).map fun p => (Json.str p.1, p.2)
      else if c == 'n' then (litRest ['u', 'l', 'l'] cs).map fun r => (Json.null, r)
      else if c == 't' then (litRest ['r', 'u', 'e'] cs).map fun r => (Json.bool true, r)
      else if c == 'f' then (litRest ['a', 'l', 's', 'e'] cs).map fun r => (Json.bool false, r)
      else if c == '-' then
        let p := spanDigits cs
        if p.1.isEmpty then none else some (Json.num (-(digitsToNat p.1 : Int)), p.2)
      else if c.isDigit then
        let p := spanDigits (c :: cs)
        if p.1.isEmpty then none else some (Json.num (digitsToNat p.1 : Int), p.2)
      else none

/-- Parse the fields of a JSON object after the opening brace.  The flag
records whether an immediate closing brace is legal (it is not right
after a comma). -/
def parseObjBody : Nat → List Char → Bool → Option (List (String × Json) × List Char)
  | 0, _, _ => none
  | Nat.succ fuel, s, allowClose =>
    match skipWs s with
    | '\x7d' :: cs => if allowClose then some ([], cs) else none
    | '"' :: cs =>
      match parseStringLit cs with
      | none => none
      | some (k, r1) =>
        match skipWs r1 with
        | ':' :: r2 =>
          match parseVal fuel r2 with
          | none => none
          | some (v, r3) =>
            match skipWs r3 with
            | ',' :: r4 => (parseObjBody fuel r4 false).map fun p => ((k, v) :: p.1, p.2)
            | '\x7d' :: r4 => some ([(k, v)], r4)
            | _ => none
        | _ => none
    | _ => none

/-- Parse the elements of a JSON array after the opening bracket. -/
def parseArrBody : Nat → List Char → Bool → Option (List Json × List Char)
  | 0, _, _ => none
  | Nat.succ fuel, s, allowClose =>
    match skipWs s with
    | ']' :: cs => if allowClose then some ([], cs) else none
    | s1 =>
      match parseVal fuel s1 with
      | none => none
      | some (v, r1) =>
        match skipWs r1 with
        | ',' :: r2 => (parseArrBody fuel r2 false).map fun p => (v :: p.1, p.2)
        | ']' :: r2 => some ([v], r2)
        | _ => none

end

/-- Model of `json.loads`: parse a complete JSON document, rejecting
trailing garbage; `none` models a raised `JSONDecodeError`. -/
def jsonLoads (s : String) : Option Json :=
  match parseVal (s.length + 1) s.data with
  | some (v, rest) => if (skipWs rest).isEmpty then some v else none
  | none => none

/-! ## `extract_json` (app.py lines 70 to 94) -/

/-- Default fields of the insights schema, in source order (app.py lines
80 to 88). -/
def defaults : List (String × Json) := [
  ("company_name", Json.str "This Company"),
  ("company_summary", Json.str "A growing organization"),
  ("main_products", Json.arr []),
  ("ideal_customers", Json.arr []),
  ("ideal_audience", Json.arr []),
  ("industry", Json.str "General"),
  ("countries_of_operation", Json.arr [])]

/-- Key membership in a field list, Python `k in data`. -/
def hasKey (d : List (String × Json)) (k : String) : Bool := d.any fun kv => kv.1 == k

/-- Value of a key in a field list, `none` when absent. -/
def getKey (d : List (String × Json)) (k : String) : Option Json :=
  (d.find? fun kv => kv.1 == k).map fun kv => kv.2

/-- Loop of app.py lines 89 to 91: append each default whose key is
missing from the parsed data. -/
def fillDefaults (d : List (String × Json)) : List (String × Json) :=
  defaults.foldl (fun acc kv => if hasKey acc kv.1 then acc else acc ++ [kv]) d

/-- Model of `extract_json` (app.py lines 70 to 94).  The input `none`
stands for the Python argument `None`; the result `none` models the
Python result `None`, returned both on the empty-content guard, on a
missing opening brace, and whenever `json.loads` raises inside the
enclosing `try`.  The slice `content[start:end]` uses the first `\x7b`
and the character after the last `\x7d`; a missing `\x7d` makes
`end = 0`, so the slice is empty and parsing fails, exactly as in the
source. -/
def extract_json (content : Option String) : Option (List (String × Json)) :=
  match content with
  | none => none
  | some c =>
    if c = "" then none
    else
      match listFind '\x7b' c.data with
      | none => none
      | some start =>
        let stop : Nat :=
          match listRFind '\x7d' c.data with
          | some j => j + 1
          | none => 0
        let slice : String := ⟨(c.data.drop start).take (stop - start)⟩
        match jsonLoads slice with
        | some (Json.obj fields) => some (fillDefaults fields)
        | _ => none

/-- Expression `extract_json(insights_raw) or ` empty dict, from app.py
line 391: the bulk path replaces a failed extraction by an empty record. -/
def bulk_insights (insights_raw : Option String) : List (String × Json) :=
  (extract_json insights_raw).getD []

/-! ## Word-boundary substitution, the model of `re.sub` for
`spam_words_map` (app.py lines 26 to 45) -/

/-- ASCII reading of the regex word class `\w`: letters, digits and the
underscore. -/
def isWordChar (c : Char) : Bool :=
  (65 ≤ c.toNat && c.toNat ≤ 90) || (97 ≤ c.toNat && c.toNat ≤ 122) ||
    (48 ≤ c.toNat && c.toNat ≤ 57) || c == '_'

/-- Case-insensitive match of one subject character against one pattern
character; the patterns of `spam_words_map` are stored lower-case, so
this is the `(?i)` flag of the source regexes. -/
def charCI (pat c : Char) : Bool :=
  c == pat || (97 ≤ pat.toNat && pat.toNat ≤ 122 && c.toNat + 32 == pat.toNat)

/-- Case-insensitive prefix match of a pattern against a subject. -/
def prefixCI : List Char → List Char → Bool
  | [], _ => true
  | _ :: _, [] => false
  | p :: ps, c :: cs => charCI p c && prefixCI ps cs

/-- Trailing word boundary `\b`: satisfied at the end of the string and
before a non-word character. -/
def boundaryAt : List Char → Bool
  | [] => true
  | c :: _ => !isWordChar c

/-- Full-pattern match at the head of the subject, including the
trailing `\b`.  The leading `\b` is the callers responsibility, tracked
by the previous-character-is-a-word-character flag. -/
def matchAt (p s : List Char) : Bool :=
  !p.isEmpty && prefixCI p s && boundaryAt (s.drop p.length)

/-- Existence of a match of the pattern anywhere in the subject; the
flag states whether the character just before the subject is a word
character, blocking a match at position zero. -/
def hasMatch (p : List Char) (pw : Bool) : List Char → Bool
  | [] => false
  | c :: cs => (!pw && matchAt p (c :: cs)) || hasMatch p (isWordChar c) cs

/-- Model of one `re.sub(pattern, replacement, text)` call for a
word-boundary pattern: scan left to right, replace each leftmost
non-overlapping match, resume after the matched text.  `re.sub` keeps
scanning the original string, so the flag after a match describes the
last matched character; its word-character status equals that of the
last pattern character because case-insensitive matching preserves the
class `\w`. -/
def wordSub (p r : List Char) (pw : Bool) (s : List Char) : List Char :=
  match s with
  | [] => []
  | c :: cs =>
    if h : (!pw && matchAt p (c :: cs)) = true then
      r ++ wordSub p r (isWordChar (p.getLastD ' ')) (List.drop p.length (c :: cs))
    else
      c :: wordSub p r (isWordChar c) cs
termination_by s.length
decreasing_by
  · have hp : p.isEmpty = false := by
      rcases Bool.and_eq_true .. ▸ h with ⟨-, hm⟩
      rcases Bool.and_eq_true .. ▸ (Bool.and_eq_true .. ▸ hm).1 with ⟨hne, -⟩
      simpa using hne
    have hp1 : 1 ≤ p.length := by
      cases p with
      | nil => simp [List.isEmpty] at hp
      | cons a l => simp
    simp only [List.length_drop, List.length_cons]
    omega
  · simp

/-- The substitution table of app.py lines 26 to 38, in source order.
Each source entry is a regex of the shape case-insensitive
`\b literal \b`; the pair stores the literal and its replacement. -/
def spam_words_map : List (List Char × List Char) := [
  ("buy".data, "explore".data),
  ("bulk".data, "high-volume".data),
  ("email list".data, "decision-maker contacts".data),
  ("guarantee".data, "support".data),
  ("cheap".data, "budget-friendly".data),
  ("free leads".data, "sample contacts".data),
  ("purchase".data, "access".data),
  ("no risk".data, "no pressure".data),
  ("special offer".data, "focused support".data),
  ("marketing list".data, "targeted contacts".data),
  ("risk-free".data, "optional".data)]

/-- Model of `smart_filter` (app.py lines 40 to 45): the guard for falsy
input, then one `re.sub` per table entry, in table order. -/
def smart_filter (text : String) : String :=
  if text = "" then text
  else ⟨spam_words_map.foldl (fun s pr => wordSub pr.1 pr.2 false s) text.data⟩

/-! ### Decidable side conditions used by the idempotence proof -/

/-- Flag describing the character preceding the continuation after a
block: the word status of the last character of the block, or the
incoming flag for an empty block. -/
def flagEnd : List Char → Bool → Bool
  | [], pw => pw
  | c :: cs, _ => flagEnd cs (isWordChar c)

/-- Danger flag: the whole subject is a proper case-insensitive prefix
of the pattern and the next pattern character is a non-word character,
so a match could continue into an unknown continuation that starts with
a non-word character. -/
def spillMatch (q x : List Char) : Bool :=
  decide (x.length < q.length) && prefixCI (q.take x.length) x &&
    !isWordChar (q.getD x.length 'a')

/-- Existence of a spill position anywhere in the subject, with the same
previous-character flag discipline as `hasMatch`. -/
def hasSpill (q : List Char) (pw : Bool) : List Char → Bool
  | [] => false
  | c :: cs => (!pw && spillMatch q (c :: cs)) || hasSpill q (isWordChar c) cs

/-- Danger flag for the tail `q2` of a pattern resuming at the start of
a replacement `r` whose surrounding characters are non-word: either `q2`
completes inside `r` at a word boundary, or `q2` consumes all of `r` and
its next character is a non-word character. -/
def tailDanger (q2 r : List Char) : Bool :=
  if q2.length ≤ r.length then
    prefixCI q2 (r.take q2.length) &&
      (decide (q2.length = r.length) || !isWordChar (r.getD q2.length 'a'))
  else
    prefixCI (q2.take r.length) r && !isWordChar (q2.getD r.length 'a')

/-- Safety of every split of the pattern `q` at an internal non-word
character against the replacement `r`. -/
def kSafe (q r : List Char) : Bool :=
  (List.range q.length).all fun k =>
    decide (k = 0) || isWordChar (q.getD (k - 1) 'a') || !tailDanger (q.drop k) r

/-- Well-formedness of a pattern or replacement word: non-empty and
starting with a word character. -/
def wordShaped (w : List Char) : Bool := !w.isEmpty && isWordChar (w.headD 'a')

/-- All conditions under which substituting by `r` can neither contain
nor create a match of the pattern `q`. -/
def subSafe (q r : List Char) : Bool :=
  !hasMatch q false r && !hasSpill q false r && kSafe q r

/-- Conjunction of every side condition the idempotence argument needs,
over all pattern/replacement pairs of the table. -/
def spamTableSafe : Bool :=
  spam_words_map.all (fun pr => wordShaped pr.1 && wordShaped pr.2) &&
    spam_words_map.all fun qr => spam_words_map.all fun pr => subSafe qr.1 pr.2

/-! ## `scrape_website` (app.py lines 50 to 65) -/

/-- URL actually requested by `scrape_website`: the single candidate
obtained by prepending the scheme when the input does not start with
`http`. -/
def scrape_candidate (url : String) : String :=
  if pyStartsWith url "http" then url else "https://" ++ url

/-- Model of `scrape_website` (app.py lines 50 to 65).  The parameter
`fetchText` stands for the external pipeline `requests.get` followed by
`raise_for_status` and `BeautifulSoup.get_text`; `none` is any raised
exception, which the source maps to the empty string.  Successful text
is truncated to the first 4000 characters. -/
def scrape_website (fetchText : String → Option String) (url : String) : String :=
  if url = "" then ""
  else
    match fetchText (scrape_candidate url) with
    | none => ""
    | some text => pyTake 4000 text

/-- Modelled from the spec (the Fetcher contract of section 4.2, quoted
by claim C8): the spec prescribes a set of scheme and `www.` candidate
permutations for a bare domain and the first candidate that yields a
non-empty document.  This definition follows the spec wording and exists
only to be compared with `scrape_website`, which the source actually
implements. -/
def spec_scrape_candidates (url : String) : List String :=
  if pyStartsWith url "http" then [url]
  else ["https://" ++ url, "https://www." ++ url, "http://" ++ url, "http://www." ++ url]

/-- Modelled from the spec, companion of `spec_scrape_candidates`:
return the first candidate whose fetched document is non-empty. -/
def spec_scrape_website (fetchText : String → Option String) (url : String) : Option String :=
  (spec_scrape_candidates url).findSome? fun u =>
    match fetchText u with
    | some t => if t = "" then none else some t
    | none => none

/-! ## `safe_api_call` (app.py lines 99 to 108) -/

/-- Recursion of the retry loop `for attempt in range(1, retries + 1)`.
The wrapped callable is `f`, indexed by attempt number; `f k = none`
models an exception on attempt `k`.  The result carries the returned
value, the number of invocations of `f`, and the list of sleep durations
`backoff * attempt + random()` in order.  The case `remaining = 0`
models both the empty loop range and the trailing `return None`. -/
def safe_attempts {α : Type} (f : Nat → Option α) (backoff : ℚ) (rand : Nat → ℚ) :
    Nat → Nat → Option α × Nat × List ℚ
  | _, 0 => (none, 0, [])
  | attempt, Nat.succ remaining =>
    match f attempt with
    | some v => (some v, 1, [])
    | none =>
      if remaining = 0 then (none, 1, [])
      else
        let res := safe_attempts f backoff rand (attempt + 1) remaining
        (res.1, res.2.1 + 1, (backoff * (attempt : ℚ) + rand attempt) :: res.2.2)

/-- Model of `safe_api_call` (app.py lines 99 to 108), starting at
attempt 1 with the configured number of retries. -/
def safe_api_call {α : Type} (f : Nat → Option α) (retries : Nat) (backoff : ℚ)
    (rand : Nat → ℚ) : Option α × Nat × List ℚ :=
  safe_attempts f backoff rand 1 retries

/-! ## `groq_ai_generate_email` (app.py lines 147 to 259) -/

/-- Observable outcome of one `groq_ai_generate_email` call: the
returned string, how many POST requests to the inference endpoint were
issued, and whether `smart_filter` was applied to the reply. -/
structure EmailGen where
  result : String
  requests : Nat
  filtered : Bool
deriving DecidableEq

/-- Model of `groq_ai_generate_email` (app.py lines 147 to 259).  The
prompt texts are static data assembled from the insights dict (out of
scope per spec section 1); what the model keeps is the control flow: the
missing-key guard returns the empty string, an unknown pitch type
returns the literal `Invalid pitch type` before any request, otherwise
one POST is issued, whose reply `resp` (`none` for any raised exception)
is passed through `smart_filter` on success and becomes the empty string
on failure. -/
def groq_ai_generate_email (api_key : String) (resp : Option String)
    (pitch_type : String) : EmailGen :=
  if api_key = "" then ⟨"", 0, false⟩
  else if pyLower pitch_type = "professional" ∨ pyLower pitch_type = "results" ∨
      pyLower pitch_type = "data" ∨ pyLower pitch_type = "linkedin" then
    match resp with
    | some content => ⟨smart_filter content, 1, true⟩
    | none => ⟨"", 1, false⟩
  else ⟨"Invalid pitch type", 0, false⟩

/-! ## Bulk mode state machine (`analyze_bulk`, app.py lines 298 to 450) -/

/-- Uploaded table after pandas parsing: column labels and rows of
cells. -/
structure Table where
  cols : List String
  rows : List (List String)
deriving DecidableEq

/-- The two values `analyze_bulk` keeps in `st.session_state`:
`bulk_index` and `last_file_hash` (app.py lines 311 to 315). -/
structure SessionState where
  bulk_index : Nat
  last_file_hash : String
deriving DecidableEq

/-- Cell access `df.loc[i, c]`: `none` models the exception caught at
app.py lines 364 to 371. -/
def cellAt (t : Table) (i : Nat) (c : String) : Option String :=
  match t.rows.get? i with
  | none => none
  | some row =>
    match listFind c t.cols with
    | none => none
    | some j => row.get? j

/-- Outcome of one streamlit rerun of `analyze_bulk`. -/
inductive BulkOutcome where
  | readError
  | parseError
  | missingColumn
  | allProcessed
  | rowError (index : Nat)
  | processed (index : Nat) (url : String)
deriving DecidableEq

/-- Session state after the new-upload check of app.py lines 318 to
320: a changed file hash resets the in-memory cursor to zero and stores
the new hash. -/
def bulk_effective_state (fileHash : String) (s : SessionState) : SessionState :=
  if s.last_file_hash ≠ fileHash then ⟨0, fileHash⟩ else s

/-- Model of one rerun of `analyze_bulk` (app.py lines 298 to 432) up to
the navigation buttons.  Inputs: whether `file.getvalue()` succeeded,
the md5 hash of the file content, the pandas parse result (`none` models
a parse exception, including the empty-file `EmptyDataError`), and the
session state.  The hash comparison resets the in-memory cursor on a new
upload; the `Website` column is required by exact, case-sensitive name;
`processed` means the row at the cursor was scraped and enriched this
rerun.  Streamlit widget rendering is presentation only and is not
modelled. -/
def analyze_bulk_step (readable : Bool) (fileHash : String) (parsed : Option Table)
    (s : SessionState) : BulkOutcome × SessionState :=
  if !readable then (.readError, s)
  else
    match parsed with
    | none => (.parseError, bulk_effective_state fileHash s)
    | some t =>
      if "Website" ∈ t.cols then
        if (bulk_effective_state fileHash s).bulk_index ≥ t.rows.length then
          (.allProcessed, bulk_effective_state fileHash s)
        else
          match cellAt t (bulk_effective_state fileHash s).bulk_index "Website" with
          | none => (.rowError (bulk_effective_state fileHash s).bulk_index,
              bulk_effective_state fileHash s)
          | some url => (.processed (bulk_effective_state fileHash s).bulk_index url,
              bulk_effective_state fileHash s)
      else (.missingColumn, bulk_effective_state fileHash s)

/-- Effect of the Next and Skip buttons (app.py lines 437 to 443). -/
def bulk_next (s : SessionState) : SessionState :=
  { s with bulk_index := s.bulk_index + 1 }

/-- Effect of the Reset button (app.py lines 445 to 447). -/
def bulk_reset (s : SessionState) : SessionState :=
  { s with bulk_index := 0 }

/-- Effect of the manual jump control (app.py lines 343 to 351), which
sets the cursor to a one-based row number. -/
def bulk_jump (n : Nat) (s : SessionState) : SessionState :=
  { s with bulk_index := n - 1 }

/-- A user session that clicks Next after every processed row and Skip
after every row error, until a terminal outcome or fuel runs out. -/
def bulk_run (readable : Bool) (fileHash : String) (parsed : Option Table) :
    SessionState → Nat → List BulkOutcome
  | _, 0 => []
  | s, Nat.succ fuel =>
    match analyze_bulk_step readable fileHash parsed s with
    | (.processed i u, s1) => .processed i u :: bulk_run readable fileHash parsed (bulk_next s1) fuel
    | (.rowError i, s1) => .rowError i :: bulk_run readable fileHash parsed (bulk_next s1) fuel
    | (o, _) => [o]

/-- Identifiers actually processed during a run. -/
def runUrls (l : List BulkOutcome) : List String :=
  l.filterMap fun o =>
    match o with
    | .processed _ u => some u
    | _ => none

/-- Whole bulk session over a fresh upload of table `t`. -/
def bulkProcessedUrls (t : Table) : List String :=
  runUrls (bulk_run true "upload" (some t) ⟨0, "upload"⟩ (t.rows.length + 1))

/-- Errors reported before the processing of any row starts. -/
def isPreLoopError : BulkOutcome → Bool
  | .readError => true
  | .parseError => true
  | .missingColumn => true
  | _ => false

/-- Modelled from the spec (section 6, quoted by claim C5): the spec
resolves the identifier column case-insensitively from the allow-list
`website`, `url`, `domain`, `site`, with the first column as fallback.
This definition follows the spec wording and exists only to be compared
with the exact-name check of `analyze_bulk_step`. -/
def spec_resolve_identifier_column (cols : List String) : Option String :=
  match cols.find? fun c =>
      pyLower c == "website" || pyLower c == "url" || pyLower c == "domain" ||
        pyLower c == "site" with
  | some c => some c
  | none => cols.head?

/-! ## Concrete stubs for witnesses and counterexamples -/

/-- Fetcher stub that succeeds only for the `www.` permutation of
`example.com`, which `scrape_website` never requests. -/
def fetchStub (u : String) : Option String :=
  if u = "https://www.example.com" then some "hello" else none

/-- Wrapped callable that raises on attempt 1 and succeeds on
attempt 2. -/
def apiStub (n : Nat) : Option Nat := if n = 2 then some 42 else none

/-- Degenerate model of `random.random()` returning zero. -/
def zeroRand (_ : Nat) : ℚ := 0

/-! # Shared helper lemmas -/

theorem hasKey_append (d : List (String × Json)) (kv : String × Json) (k : String)
    (h : hasKey d k = true) : hasKey (d ++ [kv]) k = true := by
  simp only [hasKey, List.any_append, Bool.or_eq_true]
  exact Or.inl h

theorem hasKey_foldl_of (l : List (String × Json)) (acc : List (String × Json)) (k : String)
    (h : hasKey acc k = true) :
    hasKey (l.foldl (fun acc kv => if hasKey acc kv.1 then acc else acc ++ [kv]) acc) k = true := by
  induction l generalizing acc with
  | nil => exact h
  | cons hd tl ih =>
    simp only [List.foldl_cons]
    apply ih
    split
    · exact h
    · exact hasKey_append acc hd k h

theorem hasKey_foldl_mem (l : List (String × Json)) (acc : List (String × Json)) :
    ∀ kv ∈ l, hasKey (l.foldl (fun acc kv => if hasKey acc kv.1 then acc else acc ++ [kv]) acc)
      kv.1 = true := by
  induction l generalizing acc with
  | nil => intro kv hkv; cases hkv
  | cons hd tl ih =>
    intro kv hkv
    rcases List.mem_cons.mp hkv with rfl | hmem
    · simp only [List.foldl_cons]
      apply hasKey_foldl_of
      split
      · assumption
      · simp [hasKey, List.any_append]
    · exact ih _ kv hmem

theorem extract_json_some (c : Option String) (d : List (String × Json))
    (h : extract_json c = some d) : ∃ fields, d = fillDefaults fields := by
  cases c with
  | none => exact absurd h (by simp [extract_json])
  | some s =>
    simp only [extract_json] at h
    split at h
    · exact absurd h (by simp)
    · split at h
      · exact absurd h (by simp)
      · split at h
        · exact ⟨_, (Option.some.inj h).symm⟩
        · exact absurd h (by simp)

theorem listFind_append_cons {α : Type} [BEq α] [LawfulBEq α] (a b : List α) (x : α)
    (ha : x ∉ a) : listFind x (a ++ x :: b) = some a.length := by
  induction a with
  | nil => simp [listFind]
  | cons d ds ih =>
    have hd : (d == x) = false := by
      simp only [beq_eq_false_iff_ne, ne_eq]
      intro hdx
      exact ha (hdx ▸ List.mem_cons_self d ds)
    have ih2 := ih fun hx => ha (List.mem_cons_of_mem d hx)
    simp only [List.cons_append, listFind, hd, Bool.false_eq_true, if_false,
      List.append_eq, ih2, Option.map_some', List.length_cons]

theorem listRFind_append_cons {α : Type} [BEq α] [LawfulBEq α] (a b : List α) (x : α)
    (hb : x ∉ b) : listRFind x (a ++ x :: b) = some a.length := by
  have hrev : (a ++ x :: b).reverse = b.reverse ++ x :: a.reverse := by
    simp
  have hbrev : x ∉ b.reverse := fun hx => hb (List.mem_reverse.mp hx)
  unfold listRFind
  rw [hrev, listFind_append_cons b.reverse a.reverse x hbrev]
  simp only [Option.some.injEq, List.length_append, List.length_cons, List.length_reverse]
  omega

/-! # Claim C1 -/

/-- Claim C1, counterexample.  The claim states that the enrichment
record handed back to the caller always contains every declared field
with a type-correct empty default.  On a remote reply with no JSON the
bulk path of app.py line 391 yields the empty record, which contains no
field at all; and when a parse succeeds, the defaults substituted for
missing string fields are the non-empty strings of app.py lines 80 to
88, here `This Company`, not the empty string. -/
theorem c1_counterexample :
    bulk_insights (some "Sorry, no analysis available.") = [] ∧
      getKey (bulk_insights (some "\x7b\x7d")) "company_name" = some (Json.str "This Company") :=
  ⟨rfl, rfl⟩

/-- Claim C1, amended.  When `extract_json` returns a record, every
declared field of the schema is present (missing fields are filled from
the `defaults` table, whose string defaults are non-empty phrases and
whose list defaults are empty lists); when the remote call fails or the
reply contains no parseable JSON object, `extract_json` returns `none`
and the bulk path substitutes the empty record, which has no fields. -/
theorem c1_amended :
    (∀ c d, extract_json c = some d → (defaults.all fun kv => hasKey d kv.1) = true) ∧
      (∀ c, extract_json c = none → bulk_insights c = []) := by
  constructor
  · intro c d h
    obtain ⟨fields, rfl⟩ := extract_json_some c d h
    rw [List.all_eq_true]
    intro kv hkv
    exact hasKey_foldl_mem defaults fields kv hkv
  · intro c h
    simp [bulk_insights, h]

/-- Claim C1, witness: a concrete successful extraction from the reply
consisting of an empty JSON object, and a concrete failed extraction. -/
theorem c1_witness :
    (defaults.all fun kv => hasKey (fillDefaults []) kv.1) = true ∧
      bulk_insights (some "nothing structured") = [] :=
  ⟨c1_amended.1 (some "\x7b\x7d") (fillDefaults []) rfl,
    c1_amended.2 (some "nothing structured") rfl⟩

/-! # Claim C4 -/

/-- Claim C4, counterexample.  The claim states that when no parseable
structured block can be located, `extract_json` returns the zero-value
`EnrichmentResult` together with an error.  On a brace-free reply the
source returns Python `None`: no record and no error value are
produced. -/
theorem c4_counterexample :
    extract_json (some "The model produced no structured output.") = none :=
  rfl

/-- Claim C4, amended.  `extract_json` parses the slice of the reply
between the first opening brace and the character after the last
closing brace; if that slice parses as a JSON object the record is
returned with defaults filled in, otherwise the result is `None` (the
caller substitutes an empty record), and the function is total, never
propagating an exception. -/
theorem c4_amended (pre mid post : String) (hpre : '\x7b' ∉ pre.data)
    (hpost : '\x7d' ∉ post.data) :
    extract_json (some (pre ++ "\x7b" ++ mid ++ "\x7d" ++ post)) =
      match jsonLoads ("\x7b" ++ mid ++ "\x7d") with
      | some (Json.obj fields) => some (fillDefaults fields)
      | _ => none := by
  have hdata : (pre ++ "\x7b" ++ mid ++ "\x7d" ++ post).data =
      pre.data ++ '\x7b' :: (mid.data ++ '\x7d' :: post.data) := by
    simp [String.data_append]
  have hne : ¬ (pre ++ "\x7b" ++ mid ++ "\x7d" ++ post) = "" := by
    intro h0
    have h1 : pre.data ++ '\x7b' :: (mid.data ++ '\x7d' :: post.data) = ([] : List Char) := by
      rw [← hdata, h0]
    simp at h1
  have hfind : listFind '\x7b' (pre ++ "\x7b" ++ mid ++ "\x7d" ++ post).data =
      some pre.data.length := by
    rw [hdata]
    exact listFind_append_cons pre.data _ _ hpre
  have hrfind : listRFind '\x7d' (pre ++ "\x7b" ++ mid ++ "\x7d" ++ post).data =
      some (pre.data.length + 1 + mid.data.length) := by
    have : (pre ++ "\x7b" ++ mid ++ "\x7d" ++ post).data =
        (pre.data ++ '\x7b' :: mid.data) ++ '\x7d' :: post.data := by
      rw [hdata]; simp
    rw [this, listRFind_append_cons _ _ _ hpost]
    simp only [Option.some.injEq, List.length_append, List.length_cons]
    omega
  have hslice : ((pre ++ "\x7b" ++ mid ++ "\x7d" ++ post).data.drop pre.data.length).take
      (pre.data.length + 1 + mid.data.length + 1 - pre.data.length) =
      '\x7b' :: mid.data ++ ['\x7d'] := by
    rw [hdata, List.drop_left]
    have harith : pre.data.length + 1 + mid.data.length + 1 - pre.data.length =
        mid.data.length + 2 := by omega
    rw [harith]
    show List.take (mid.data.length + 2) ('\x7b' :: (mid.data ++ '\x7d' :: post.data)) = _
    rw [List.take_succ_cons]
    have h2 : mid.data.length + 1 = mid.data.length + 1 := rfl
    have : List.take (mid.data.length + 1) (mid.data ++ '\x7d' :: post.data) =
        mid.data ++ List.take 1 ('\x7d' :: post.data) := List.take_append 1
    rw [this]
    rfl
  have hstr : (⟨'\x7b' :: mid.data ++ ['\x7d']⟩ : String) = "\x7b" ++ mid ++ "\x7d" := by
    apply congrArg String.mk
    simp [String.data_append]
  simp only [extract_json, hne, if_false, hfind, hrfind, hslice, hstr]

/-- Claim C4, witness: concrete extraction of a JSON object embedded in
surrounding prose. -/
theorem c4_witness :
    extract_json (some ("reply: " ++ "\x7b" ++ "\"industry\": \"Tech\"" ++ "\x7d" ++ " end")) =
      match jsonLoads ("\x7b" ++ "\"industry\": \"Tech\"" ++ "\x7d") with
      | some (Json.obj fields) => some (fillDefaults fields)
      | _ => none :=
  c4_amended "reply: " "\"industry\": \"Tech\"" " end" (by decide) (by decide)

/-! # Claim C10 -/

/-- Claim C10, counterexample.  The claim states that every pitch type
outside the four known ones yields the literal `Invalid pitch type`.
When the API key secret is empty, the guard of app.py lines 148 to 149
returns the empty string first, even for an unknown pitch type. -/
theorem c10_counterexample :
    groq_ai_generate_email "" (some "whatever") "casual" = ⟨"", 0, false⟩ ∧
      ("" : String) ≠ "Invalid pitch type" :=
  ⟨rfl, by decide⟩

/-- Claim C10, amended.  Provided an API key is configured, an unknown
pitch type (after lower-casing) returns the literal `Invalid pitch
type` with no POST request issued and no spam filtering applied,
independently of what the remote endpoint would reply. -/
theorem c10_amended (api_key pitch_type : String) (resp : Option String)
    (hk : api_key ≠ "")
    (hp : ¬ (pyLower pitch_type = "professional" ∨ pyLower pitch_type = "results" ∨
      pyLower pitch_type = "data" ∨ pyLower pitch_type = "linkedin")) :
    groq_ai_generate_email api_key resp pitch_type = ⟨"Invalid pitch type", 0, false⟩ := by
  simp only [groq_ai_generate_email, hk, if_false, hp, if_true]

/-- Claim C10, witness at the unknown pitch type `casual`. -/
theorem c10_witness :
    groq_ai_generate_email "key" (some "reply") "casual" = ⟨"Invalid pitch type", 0, false⟩ :=
  c10_amended "key" "casual" (some "reply") (by decide) (by decide)

/-! # Claim C7 -/

theorem safe_attempts_calls_le {α : Type} (f : Nat → Option α) (b : ℚ) (rd : Nat → ℚ) :
    ∀ n a, (safe_attempts f b rd a n).2.1 ≤ n := by
  intro n
  induction n with
  | zero => intro a; simp [safe_attempts]
  | succ rem ih =>
    intro a
    simp only [safe_attempts]
    cases f a with
    | some v => simp
    | none =>
      simp only
      split
      · simp
      · simpa using Nat.succ_le_succ (ih (a + 1))

theorem safe_attempts_all_fail {α : Type} (f : Nat → Option α) (b : ℚ) (rd : Nat → ℚ) :
    ∀ n a, (∀ j, a ≤ j → j < a + n → f j = none) →
      safe_attempts f b rd a n =
        (none, n, (List.range' a (n - 1)).map fun (j : Nat) => b * (j : ℚ) + rd j) := by
  intro n
  induction n with
  | zero => intro a _; simp [safe_attempts]
  | succ rem ih =>
    intro a hfail
    have ha : f a = none := hfail a (Nat.le_refl a) (by omega)
    simp only [safe_attempts, ha]
    by_cases hrem : rem = 0
    · subst hrem
      simp
    · rw [if_neg hrem]
      have hrec := ih (a + 1) (fun j h1 h2 => hfail j (by omega) (by omega))
      rw [hrec]
      simp only [Prod.mk.injEq, true_and]
      rw [show rem + 1 - 1 = (rem - 1) + 1 from by omega, List.range'_succ, List.map_cons]

theorem safe_attempts_first_success {α : Type} (f : Nat → Option α) (b : ℚ) (rd : Nat → ℚ)
    (v : α) : ∀ n a k, a ≤ k → k < a + n → f k = some v →
      (∀ j, a ≤ j → j < k → f j = none) →
      safe_attempts f b rd a n =
        (some v, k + 1 - a, (List.range' a (k - a)).map fun (j : Nat) => b * (j : ℚ) + rd j) := by
  intro n
  induction n with
  | zero => intro a k h1 h2; omega
  | succ rem ih =>
    intro a k h1 h2 hk hfail
    rcases Nat.eq_or_lt_of_le h1 with rfl | hlt
    · simp only [safe_attempts, hk]
      have : a + 1 - a = 1 := by omega
      rw [this, show a - a = 0 from by omega]
      simp
    · have ha : f a = none := hfail a (Nat.le_refl a) hlt
      simp only [safe_attempts, ha]
      have hrem : rem ≠ 0 := by omega
      rw [if_neg hrem]
      have hrec := ih (a + 1) k (by omega) (by omega) hk
        (fun j hj1 hj2 => hfail j (by omega) hj2)
      rw [hrec]
      simp only [Prod.mk.injEq, true_and]
      refine ⟨by omega, ?_⟩
      have hka : k - a = (k - (a + 1)) + 1 := by omega
      rw [hka, List.range'_succ, List.map_cons]

/-- Claim C7.  The retry wrapper `safe_api_call` invokes the wrapped
callable at most `retries` times; when every attempt raises it returns
`None` after exactly `retries` invocations with a backoff sleep between
consecutive failed attempts; when attempt `k` is the first to succeed it
returns that result after exactly `k` invocations, having slept
`backoff * attempt + random()` after each of the `k - 1` failed
attempts.  No exception escapes the wrapper: the model is a total
function whose failure case is the value `none`. -/
theorem c7_safe_api_call {α : Type} (f : Nat → Option α) (retries : Nat) (b : ℚ)
    (rd : Nat → ℚ) :
    ((safe_api_call f retries b rd).2.1 ≤ retries) ∧
      ((∀ j, 1 ≤ j → j ≤ retries → f j = none) →
        safe_api_call f retries b rd =
          (none, retries, (List.range' 1 (retries - 1)).map fun (j : Nat) =>
            b * (j : ℚ) + rd j)) ∧
      (∀ k v, 1 ≤ k → k ≤ retries → (∀ j, 1 ≤ j → j < k → f j = none) → f k = some v →
        safe_api_call f retries b rd =
          (some v, k, (List.range' 1 (k - 1)).map fun (j : Nat) =>
            b * (j : ℚ) + rd j)) := by
  refine ⟨safe_attempts_calls_le f b rd retries 1, ?_, ?_⟩
  · intro hfail
    exact safe_attempts_all_fail f b rd retries 1 (fun j h1 h2 => hfail j h1 (by omega))
  · intro k v h1 h2 hfail hk
    have := safe_attempts_first_success f b rd v retries 1 k h1 (by omega) hk hfail
    rw [safe_api_call, this, show k + 1 - 1 = k from by omega]

/-- Claim C7, witness: a callable that raises on attempt 1 and succeeds
on attempt 2 yields its value after two invocations and one sleep of
duration `backoff * 1`. -/
theorem c7_witness :
    safe_api_call apiStub 3 2 zeroRand = (some 42, 2, [2]) := by
  have hfail : ∀ j, 1 ≤ j → j < 2 → apiStub j = none := by
    intro j hj1 hj2
    have hj : j = 1 := by omega
    subst hj
    rfl
  have h := (c7_safe_api_call apiStub 3 2 zeroRand).2.2 2 42 (by omega) (by omega) hfail rfl
  rw [h]
  norm_num [zeroRand, List.range']

/-! # Claim C8 -/

theorem pyTake_length_le (n : Nat) (s : String) : (pyTake n s).length ≤ n := by
  show (s.data.take n).length ≤ n
  rw [List.length_take]
  omega

/-- Claim C8, counterexample.  The claim states that the fetch step
builds scheme and `www.` permutations and returns the first candidate
with a non-empty document.  The source builds exactly one candidate:
with a fetcher that only answers for `https://www.example.com`,
`scrape_website` on the bare domain `example.com` returns the empty
string, while the spec-modelled permutation fetcher succeeds. -/
theorem c8_counterexample :
    scrape_website fetchStub "example.com" = "" ∧
      spec_scrape_website fetchStub "example.com" = some "hello" :=
  ⟨rfl, rfl⟩

/-- Claim C8, amended.  `scrape_website` consults exactly one candidate
URL, obtained by prepending `https://` when the input does not start
with `http` (its result depends only on the fetcher value at that single
URL, so no permutation is ever tried); on success the extracted text is
truncated to the first 4000 characters, a budget inside the stated 4000
to 20000 range; any fetch failure and the empty input are both mapped to
the empty string, which is the failure sentinel of the source rather
than a distinguished error value. -/
theorem c8_amended :
    (∀ f g u, f (scrape_candidate u) = g (scrape_candidate u) →
      scrape_website f u = scrape_website g u) ∧
      (∀ f u, (scrape_website f u).length ≤ 4000) ∧
      (∀ f u t, u ≠ "" → f (scrape_candidate u) = some t →
        scrape_website f u = pyTake 4000 t) ∧
      (∀ f u, f (scrape_candidate u) = none → scrape_website f u = "") := by
  refine ⟨?_, ?_, ?_, ?_⟩
  · intro f g u h
    simp only [scrape_website, h]
  · intro f u
    simp only [scrape_website]
    split
    · decide
    · split
      · decide
      · exact pyTake_length_le 4000 _
  · intro f u t hu ht
    simp only [scrape_website, hu, if_false, ht]
  · intro f u h
    simp only [scrape_website, h]
    split <;> rfl

/-- Claim C8, witness: one successful fetch truncated by `pyTake`, and
one failing fetch mapped to the empty string. -/
theorem c8_witness :
    scrape_website fetchStub "www.example.com" = pyTake 4000 "hello" ∧
      scrape_website fetchStub "site.org" = "" :=
  ⟨c8_amended.2.2.1 fetchStub "www.example.com" "hello" (by decide) rfl,
    c8_amended.2.2.2 fetchStub "site.org" rfl⟩

/-! # Bulk step helper lemmas -/

theorem bulk_eff_hash (fh : String) (s : SessionState) :
    (bulk_effective_state fh s).last_file_hash = fh := by
  unfold bulk_effective_state
  split
  · rfl
  · rename_i h
    exact not_ne_iff.mp h

theorem bulk_eff_of_eq {fh : String} {s : SessionState} (h : s.last_file_hash = fh) :
    bulk_effective_state fh s = s := by
  unfold bulk_effective_state
  rw [if_neg (by simp [h])]

theorem bulk_eff_of_ne {fh : String} {s : SessionState} (h : s.last_file_hash ≠ fh) :
    bulk_effective_state fh s = ⟨0, fh⟩ := by
  unfold bulk_effective_state
  rw [if_pos h]

theorem analyze_bulk_step_cols (t : Table) (fh : String) (s : SessionState)
    (hcol : "Website" ∈ t.cols) :
    analyze_bulk_step true fh (some t) s =
      (if (bulk_effective_state fh s).bulk_index ≥ t.rows.length then
        (BulkOutcome.allProcessed, bulk_effective_state fh s)
      else
        match cellAt t (bulk_effective_state fh s).bulk_index "Website" with
        | none => (BulkOutcome.rowError (bulk_effective_state fh s).bulk_index,
            bulk_effective_state fh s)
        | some url => (BulkOutcome.processed (bulk_effective_state fh s).bulk_index url,
            bulk_effective_state fh s)) := by
  simp [analyze_bulk_step, hcol]

theorem analyze_bulk_step_nocols (t : Table) (fh : String) (s : SessionState)
    (hcol : "Website" ∉ t.cols) :
    analyze_bulk_step true fh (some t) s =
      (BulkOutcome.missingColumn, bulk_effective_state fh s) := by
  simp [analyze_bulk_step, hcol]

/-! # Claim C5 -/

/-- Claim C5, counterexample.  The claim states that the identifier
column is resolved case-insensitively from the allow-list `website`,
`url`, `domain`, `site` with the first column as fallback.  The source
checks for the exact, case-sensitive label `Website` (app.py line 336):
a table whose only column is lower-case `website` is rejected with the
missing-column error, while the spec-modelled resolver accepts it. -/
theorem c5_counterexample :
    (analyze_bulk_step true "h" (some ⟨["website"], [["a.com"]]⟩) ⟨0, "h"⟩).1 =
      BulkOutcome.missingColumn ∧
      spec_resolve_identifier_column ["website"] = some "website" :=
  ⟨rfl, rfl⟩

/-- Claim C5, amended.  The identifier column must carry the exact,
case-sensitive name `Website`; when that name is absent the run stops
with the missing-column error (no allow-list and no first-column
fallback is consulted), and every processed identifier is read from the
`Website` column. -/
theorem c5_amended :
    (∀ (t : Table) (fh : String) (s : SessionState), "Website" ∉ t.cols →
      (analyze_bulk_step true fh (some t) s).1 = BulkOutcome.missingColumn) ∧
    (∀ (t : Table) (fh : String) (s : SessionState) (i : Nat) (u : String),
      (analyze_bulk_step true fh (some t) s).1 = BulkOutcome.processed i u →
      cellAt t i "Website" = some u) := by
  constructor
  · intro t fh s hcol
    rw [analyze_bulk_step_nocols t fh s hcol]
  · intro t fh s i u h
    by_cases hcol : "Website" ∈ t.cols
    · rw [analyze_bulk_step_cols t fh s hcol] at h
      by_cases hidx : (bulk_effective_state fh s).bulk_index ≥ t.rows.length
      · rw [if_pos hidx] at h
        exact absurd h (by simp)
      · rw [if_neg hidx] at h
        cases hcell : cellAt t (bulk_effective_state fh s).bulk_index "Website" with
        | none => rw [hcell] at h; exact absurd h (by simp)
        | some url =>
          rw [hcell] at h
          simp only [BulkOutcome.processed.injEq] at h
          obtain ⟨hi, hu⟩ := h
          rw [← hi, ← hu]
          exact hcell
    · rw [analyze_bulk_step_nocols t fh s hcol] at h
      exact absurd h (by simp)

/-- Claim C5, witness: a lower-case column is rejected, and a processed
row reads its identifier from the `Website` column. -/
theorem c5_witness :
    (analyze_bulk_step true "h" (some ⟨["url"], [["a.com"]]⟩) ⟨0, "h"⟩).1 =
      BulkOutcome.missingColumn ∧
      cellAt ⟨["Website"], [["a.com"]]⟩ 0 "Website" = some "a.com" :=
  ⟨c5_amended.1 ⟨["url"], [["a.com"]]⟩ "h" ⟨0, "h"⟩ (by decide),
    c5_amended.2 ⟨["Website"], [["a.com"]]⟩ "h" ⟨0, "h"⟩ 0 "a.com" rfl⟩

/-! # Claim C6 -/

/-- Claim C6.  An unreadable upload, a file pandas cannot parse (which
includes a genuinely empty file, pandas raising `EmptyDataError`), and a
table without the required `Website` column are exactly the outcomes
reported as blocking errors before the processing loop starts; whenever
such an error is reported, the whole run processes no row at all, so
nothing is fetched, enriched or recorded. -/
theorem c6_input_validation (rb : Bool) (fh : String) (parsed : Option Table)
    (s : SessionState) :
    ((isPreLoopError (analyze_bulk_step rb fh parsed s).1 = true) ↔
      (rb = false ∨ parsed = none ∨ ∃ t, parsed = some t ∧ "Website" ∉ t.cols)) ∧
    (∀ fuel, isPreLoopError (analyze_bulk_step rb fh parsed s).1 = true →
      runUrls (bulk_run rb fh parsed s fuel) = []) := by
  constructor
  · cases rb with
    | false => simp [analyze_bulk_step, isPreLoopError]
    | true =>
      cases parsed with
      | none => simp [analyze_bulk_step, isPreLoopError]
      | some t =>
        by_cases hcol : "Website" ∈ t.cols
        · rw [analyze_bulk_step_cols t fh s hcol]
          constructor
          · intro h
            exfalso
            split at h
            · simp [isPreLoopError] at h
            · split at h <;> simp [isPreLoopError] at h
          · rintro (h | h | ⟨t2, ht2, hc2⟩)
            · simp at h
            · simp at h
            · injection ht2 with ht
              subst ht
              exact (hc2 hcol).elim
        · rw [analyze_bulk_step_nocols t fh s hcol]
          simp [isPreLoopError, hcol]
  · intro fuel herr
    cases fuel with
    | zero => simp [bulk_run, runUrls]
    | succ m =>
      rcases hstep : analyze_bulk_step rb fh parsed s with ⟨o, s2⟩
      rw [hstep] at herr
      cases o <;> simp [isPreLoopError] at herr <;>
        simp [bulk_run, hstep, runUrls]

/-- Claim C6, witness: an unreadable upload yields a pre-loop error and
an empty processed set. -/
theorem c6_witness :
    runUrls (bulk_run false "h" (some ⟨["Website"], [["a.com"]]⟩) ⟨0, "h"⟩ 5) = [] :=
  (c6_input_validation false "h" (some ⟨["Website"], [["a.com"]]⟩) ⟨0, "h"⟩).2 5 rfl

/-! # Claim C2 -/

/-- Claim C2, counterexample.  The claim states that after a pause or
restart the next item is derived purely from durable checkpoint
contents and never from an in-memory cursor.  The source has no durable
checkpoint at all: with the same uploaded file, the processed row is
whatever the in-memory `st.session_state.bulk_index` says, and a fresh
session (the state a process restart produces) starts over at row 0,
forgetting that row 0 had already been processed. -/
theorem c2_counterexample :
    (analyze_bulk_step true "h" (some ⟨["Website"], [["x.com"], ["y.com"]]⟩) ⟨1, "h"⟩).1 =
      BulkOutcome.processed 1 "y.com" ∧
      (analyze_bulk_step true "h" (some ⟨["Website"], [["x.com"], ["y.com"]]⟩) ⟨0, ""⟩).1 =
        BulkOutcome.processed 0 "x.com" :=
  ⟨rfl, rfl⟩

/-- Claim C2, amended.  The next item to process is derived from the
in-memory session cursor alone: when the stored file hash matches the
upload, the row at `bulk_index` is processed; when it does not match
(as after a process restart, which resets the session state), the
cursor is reset and processing starts again at row 0; the session state
afterwards stores the hash of the current upload.  No durable
checkpoint exists. -/
theorem c2_amended (t : Table) (fh : String) (s : SessionState) :
    (s.last_file_hash = fh → "Website" ∈ t.cols → s.bulk_index < t.rows.length →
      (analyze_bulk_step true fh (some t) s).1 =
        (match cellAt t s.bulk_index "Website" with
         | some u => BulkOutcome.processed s.bulk_index u
         | none => BulkOutcome.rowError s.bulk_index)) ∧
    (s.last_file_hash ≠ fh → "Website" ∈ t.cols → 0 < t.rows.length →
      (analyze_bulk_step true fh (some t) s).1 =
        (match cellAt t 0 "Website" with
         | some u => BulkOutcome.processed 0 u
         | none => BulkOutcome.rowError 0)) ∧
    (analyze_bulk_step true fh (some t) s).2.last_file_hash = fh := by
  refine ⟨?_, ?_, ?_⟩
  · intro hhash hcol hidx
    rw [analyze_bulk_step_cols t fh s hcol, bulk_eff_of_eq hhash]
    rw [if_neg (by omega)]
    cases hc : cellAt t s.bulk_index "Website" <;> simp [hc]
  · intro hhash hcol hidx
    rw [analyze_bulk_step_cols t fh s hcol, bulk_eff_of_ne hhash]
    rw [if_neg (show ¬ ((⟨0, fh⟩ : SessionState).bulk_index ≥ t.rows.length) by
      show ¬ (0 ≥ t.rows.length); omega)]
    cases hc : cellAt t 0 "Website" <;> simp [hc]
  · by_cases hcol : "Website" ∈ t.cols
    · rw [analyze_bulk_step_cols t fh s hcol]
      split
      · exact bulk_eff_hash fh s
      · split <;> exact bulk_eff_hash fh s
    · rw [analyze_bulk_step_nocols t fh s hcol]
      exact bulk_eff_hash fh s

/-- Claim C2, witness: with a matching hash the in-memory cursor picks
row 1; a fresh session on the same file starts over at row 0. -/
theorem c2_witness :
    (analyze_bulk_step true "h" (some ⟨["Website"], [["a.com"], ["b.com"]]⟩) ⟨1, "h"⟩).1 =
      BulkOutcome.processed 1 "b.com" ∧
      (analyze_bulk_step true "h" (some ⟨["Website"], [["a.com"], ["b.com"]]⟩) ⟨5, ""⟩).1 =
        BulkOutcome.processed 0 "a.com" := by
  constructor
  · exact (c2_amended ⟨["Website"], [["a.com"], ["b.com"]]⟩ "h" ⟨1, "h"⟩).1 rfl
      (by decide) (by decide)
  · exact (c2_amended ⟨["Website"], [["a.com"], ["b.com"]]⟩ "h" ⟨5, ""⟩).2.1 (by decide)
      (by decide) (by decide)

/-! # Claim C3 -/

/-- Claim C3, counterexample.  The claim states that duplicate
identifiers are dropped, so `[x, x, y]` is processed as `x` once and
`y` once.  The source performs no deduplication: the bulk session over
those three rows processes three identifiers and `x` is processed (and
would be fetched and enriched) twice. -/
theorem c3_counterexample :
    bulkProcessedUrls ⟨["Website"], [["x"], ["x"], ["y"]]⟩ = ["x", "x", "y"] ∧
      (bulkProcessedUrls ⟨["Website"], [["x"], ["x"], ["y"]]⟩).count "x" = 2 :=
  ⟨rfl, rfl⟩

theorem listFind_mem {α : Type} [BEq α] [LawfulBEq α] (x : α) (l : List α) (j : Nat)
    (h : listFind x l = some j) : x ∈ l := by
  induction l generalizing j with
  | nil => simp [listFind] at h
  | cons d ds ih =>
    simp only [listFind] at h
    split at h
    · rename_i hd
      exact (eq_of_beq hd) ▸ List.mem_cons_self d ds
    · cases hfind : listFind x ds with
      | none => rw [hfind] at h; simp at h
      | some m => exact List.mem_cons_of_mem d (ih m hfind)

theorem c3_run_aux (t : Table) (j : Nat) (hj : listFind "Website" t.cols = some j)
    (hrow : ∀ r ∈ t.rows, j < r.length) :
    ∀ n k, k + n = t.rows.length →
      runUrls (bulk_run true "upload" (some t) ⟨k, "upload"⟩ (n + 1)) =
        (t.rows.drop k).map fun r => r.getD j "" := by
  have hcol : "Website" ∈ t.cols := listFind_mem _ _ _ hj
  intro n
  induction n with
  | zero =>
    intro k hk
    have hstep : analyze_bulk_step true "upload" (some t) ⟨k, "upload"⟩ =
        (.allProcessed, ⟨k, "upload"⟩) := by
      rw [analyze_bulk_step_cols t "upload" ⟨k, "upload"⟩ hcol,
        bulk_eff_of_eq (show (⟨k, "upload"⟩ : SessionState).last_file_hash = "upload" from rfl)]
      rw [if_pos (show (⟨k, "upload"⟩ : SessionState).bulk_index ≥ t.rows.length by
        show k ≥ t.rows.length; omega)]
    simp [bulk_run, hstep, runUrls, List.drop_eq_nil_of_le (by omega : t.rows.length ≤ k)]
  | succ m ih =>
    intro k hk
    have hklen : k < t.rows.length := by omega
    have hrowk : t.rows.get? k = some (t.rows.get ⟨k, hklen⟩) := List.get?_eq_get hklen
    have hmem : t.rows.get ⟨k, hklen⟩ ∈ t.rows := List.get_mem t.rows k hklen
    have hjlen : j < (t.rows.get ⟨k, hklen⟩).length := hrow _ hmem
    have hcell : cellAt t k "Website" = some ((t.rows.get ⟨k, hklen⟩).getD j "") := by
      simp only [cellAt, hrowk, hj]
      rw [List.getD_eq_get?, List.get?_eq_get hjlen]
      rfl
    have hstep : analyze_bulk_step true "upload" (some t) ⟨k, "upload"⟩ =
        (.processed k ((t.rows.get ⟨k, hklen⟩).getD j ""), ⟨k, "upload"⟩) := by
      rw [analyze_bulk_step_cols t "upload" ⟨k, "upload"⟩ hcol,
        bulk_eff_of_eq (show (⟨k, "upload"⟩ : SessionState).last_file_hash = "upload" from rfl)]
      rw [if_neg (show ¬ ((⟨k, "upload"⟩ : SessionState).bulk_index ≥ t.rows.length) by
        show ¬ (k ≥ t.rows.length); omega)]
      show (match cellAt t k "Website" with
        | none => (BulkOutcome.rowError k, (⟨k, "upload"⟩ : SessionState))
        | some url => (BulkOutcome.processed k url, (⟨k, "upload"⟩ : SessionState))) = _
      rw [hcell]
    have hdrop : t.rows.drop k = t.rows.get ⟨k, hklen⟩ :: t.rows.drop (k + 1) := by
      rw [List.drop_eq_getElem_cons hklen]
      rfl
    have hunfold : bulk_run true "upload" (some t) ⟨k, "upload"⟩ (m + 1 + 1) =
        BulkOutcome.processed k ((t.rows.get ⟨k, hklen⟩).getD j "") ::
          bulk_run true "upload" (some t) ⟨k + 1, "upload"⟩ (m + 1) := by
      conv_lhs => rw [bulk_run]
      rw [hstep]
      rfl
    rw [hunfold]
    have ihk := ih (k + 1) (by omega)
    simp only [runUrls, List.filterMap_cons] at ihk ⊢
    rw [ihk, hdrop, List.map_cons]

/-- Claim C3, amended.  The bulk session performs no deduplication:
every row of the uploaded table is processed in input order, duplicate
identifiers included, so the processed identifiers are exactly the
`Website` column values row by row. -/
theorem c3_amended (t : Table) (j : Nat) (hj : listFind "Website" t.cols = some j)
    (hrow : ∀ r ∈ t.rows, j < r.length) :
    bulkProcessedUrls t = t.rows.map fun r => r.getD j "" := by
  have h := c3_run_aux t j hj hrow t.rows.length 0 (by omega)
  simpa [bulkProcessedUrls] using h

/-- Claim C3, witness: a two-row table with a second `Website` column
processes both identifiers in order. -/
theorem c3_witness :
    bulkProcessedUrls ⟨["Name", "Website"], [["a", "x"], ["b", "y"]]⟩ = ["x", "y"] := by
  have h := c3_amended ⟨["Name", "Website"], [["a", "x"], ["b", "y"]]⟩ 1 rfl (by decide)
  simpa using h

/-! # Claim C9: idempotence of the spam filter

The development follows one plan: a match of a pattern `q` in the output
of `wordSub p r` must lie inside a copied stretch of the original string
(hence was a match before, or would have fired), lie inside a copy of
`r`, or straddle a seam around a copy of `r`; the decidable conditions
`subSafe` rule out the last two for every pattern/replacement pair of
the table, so one pass removes all matches of its own pattern and
creates none for any other, and the second pass is the identity. -/

theorem charCI_word {pat c : Char} (h : charCI pat c = true) :
    isWordChar c = isWordChar pat := by
  simp only [charCI, Bool.or_eq_true, beq_iff_eq, Bool.and_eq_true, decide_eq_true_eq] at h
  rcases h with rfl | ⟨⟨h1, h2⟩, h3⟩
  · rfl
  · have hc : isWordChar c = true := by
      simp only [isWordChar, Bool.or_eq_true, Bool.and_eq_true, decide_eq_true_eq]
      exact Or.inl (Or.inl (Or.inl ⟨by omega, by omega⟩))
    have hpat : isWordChar pat = true := by
      simp only [isWordChar, Bool.or_eq_true, Bool.and_eq_true, decide_eq_true_eq]
      exact Or.inl (Or.inl (Or.inr ⟨h1, h2⟩))
    rw [hc, hpat]

theorem matchAt_head_not_word {q : List Char} (hq : isWordChar (q.headD 'a') = true)
    {z : Char} {zs : List Char} (hz : isWordChar z = false) :
    matchAt q (z :: zs) = false := by
  cases q with
  | nil => rfl
  | cons q0 qs =>
    simp only [List.headD_cons] at hq
    by_cases hci : charCI q0 z = true
    · have hw := charCI_word hci
      rw [hz, hq] at hw
      exact absurd hw (by decide)
    · simp only [Bool.not_eq_true] at hci
      simp [matchAt, prefixCI, hci]

theorem hasMatch_cons (p : List Char) (pw : Bool) (c : Char) (cs : List Char) :
    hasMatch p pw (c :: cs) =
      ((!pw && matchAt p (c :: cs)) || hasMatch p (isWordChar c) cs) := rfl

theorem hasSpill_cons (q : List Char) (pw : Bool) (c : Char) (cs : List Char) :
    hasSpill q pw (c :: cs) =
      ((!pw && spillMatch q (c :: cs)) || hasSpill q (isWordChar c) cs) := rfl

theorem hasMatch_true_flag {p : List Char} {s : List Char}
    (h : hasMatch p false s = false) : hasMatch p true s = false := by
  cases s with
  | nil => rfl
  | cons c cs =>
    rw [hasMatch_cons] at h ⊢
    rcases Bool.or_eq_false_iff.mp h with ⟨-, h2⟩
    simp [h2]

theorem hasMatch_flag_irrel {q : List Char} (hq : isWordChar (q.headD 'a') = true)
    {s : List Char} (hs : s = [] ∨ isWordChar (s.headD 'a') = false) (b1 b2 : Bool) :
    hasMatch q b1 s = hasMatch q b2 s := by
  rcases hs with rfl | hs
  · rfl
  · cases s with
    | nil => rfl
    | cons z zs =>
      simp only [List.headD_cons] at hs
      rw [hasMatch_cons, hasMatch_cons, matchAt_head_not_word hq hs]
      simp

theorem hasMatch_drop {q : List Char} : ∀ (s : List Char) (pw : Bool) (n : Nat), 1 ≤ n →
    n ≤ s.length → hasMatch q pw s = false →
    hasMatch q (isWordChar (s.getD (n - 1) 'a')) (s.drop n) = false := by
  intro s
  induction s with
  | nil =>
    intro pw n h1 h2 _
    exact absurd (h1.trans h2) (by decide)
  | cons c cs ih =>
    intro pw n h1 h2 h
    rw [hasMatch_cons] at h
    rcases Bool.or_eq_false_iff.mp h with ⟨-, hrest⟩
    cases n with
    | zero => exact absurd h1 (by decide)
    | succ m =>
      cases m with
      | zero => simpa using hrest
      | succ m2 =>
        have h2' : m2 + 1 ≤ cs.length := by
          simp only [List.length_cons] at h2
          omega
        have := ih (isWordChar c) (m2 + 1) (by omega) h2' hrest
        simpa using this

theorem prefixCI_length_le : ∀ {p s : List Char}, prefixCI p s = true → p.length ≤ s.length := by
  intro p
  induction p with
  | nil => intro s _; simp
  | cons p0 ps ih =>
    intro s h
    cases s with
    | nil => exact absurd h (by simp [prefixCI])
    | cons c cs =>
      rcases Bool.and_eq_true_iff.mp h with ⟨-, h2⟩
      simpa using Nat.succ_le_succ (ih h2)

theorem prefixCI_of_append (y : List Char) :
    ∀ (p x : List Char), p.length ≤ x.length → prefixCI p (x ++ y) = prefixCI p x := by
  intro p
  induction p with
  | nil => intro x _; rfl
  | cons p0 ps ih =>
    intro x hlen
    cases x with
    | nil => exact absurd hlen (by simp)
    | cons c cs =>
      simp only [List.cons_append, prefixCI, List.append_eq]
      rw [ih cs (by simpa using hlen)]

theorem prefixCI_split (y : List Char) :
    ∀ (x q : List Char), x.length < q.length →
      prefixCI q (x ++ y) = (prefixCI (q.take x.length) x && prefixCI (q.drop x.length) y) := by
  intro x
  induction x with
  | nil =>
    intro q _
    simp [prefixCI]
  | cons c cs ih =>
    intro q hlen
    cases q with
    | nil => exact absurd hlen (by simp)
    | cons q0 qs =>
      simp only [List.cons_append, prefixCI, List.length_cons, List.take_succ_cons,
        List.drop_succ_cons, List.append_eq]
      rw [ih qs (by simpa using hlen)]
      rw [Bool.and_assoc]

theorem prefixCI_take_self : ∀ (p s : List Char), prefixCI p s = prefixCI p (s.take p.length) := by
  intro p
  induction p with
  | nil => intro s; rfl
  | cons p0 ps ih =>
    intro s
    cases s with
    | nil => rfl
    | cons c cs =>
      simp only [List.length_cons, List.take_succ_cons, prefixCI]
      rw [← ih cs]

theorem prefixCI_getD : ∀ (p s : List Char), prefixCI p s = true → ∀ i, i < p.length →
    charCI (p.getD i 'a') (s.getD i 'a') = true := by
  intro p
  induction p with
  | nil => intro s _ i hi; exact absurd hi (by simp)
  | cons p0 ps ih =>
    intro s h i hi
    cases s with
    | nil => exact absurd h (by simp [prefixCI])
    | cons c cs =>
      rcases Bool.and_eq_true_iff.mp h with ⟨h1, h2⟩
      cases i with
      | zero => simpa using h1
      | succ m =>
        have := ih cs h2 m (by simpa using hi)
        simpa using this

theorem boundaryAt_append (l y : List Char) (hl : l ≠ []) :
    boundaryAt (l ++ y) = boundaryAt l := by
  cases l with
  | nil => exact absurd rfl hl
  | cons c cs => rfl

theorem drop_cons_getD (l : List Char) (k : Nat) (h : k < l.length) :
    l.drop k = l.getD k 'a' :: l.drop (k + 1) := by
  rw [List.drop_eq_getElem_cons h]
  congr 1
  rw [List.getD_eq_getElem?_getD, List.getElem?_eq_getElem h]
  rfl

theorem getLastD_eq_getD : ∀ (l : List Char), l ≠ [] → ∀ (x y : Char),
    l.getLastD x = l.getD (l.length - 1) y := by
  intro l
  induction l with
  | nil => intro h; exact absurd rfl h
  | cons a t ih =>
    intro _ x y
    cases t with
    | nil => rfl
    | cons b t2 =>
      rw [List.getLastD_cons, ih (by simp) a y]
      rw [show (a :: b :: t2).length - 1 = ((b :: t2).length - 1) + 1 by
        simp only [List.length_cons]; omega]
      rw [List.getD_cons_succ]

theorem subSafe_match {q r : List Char} (h : subSafe q r = true) :
    hasMatch q false r = false := by
  simp only [subSafe, Bool.and_eq_true, Bool.not_eq_true'] at h
  exact h.1.1

theorem subSafe_spill {q r : List Char} (h : subSafe q r = true) :
    hasSpill q false r = false := by
  simp only [subSafe, Bool.and_eq_true, Bool.not_eq_true'] at h
  exact h.1.2

theorem subSafe_tail {q r : List Char} (h : subSafe q r = true) :
    ∀ k, 1 ≤ k → k < q.length → isWordChar (q.getD (k - 1) 'a') = false →
      tailDanger (q.drop k) r = false := by
  intro k h1 h2 hw
  simp only [subSafe, Bool.and_eq_true, Bool.not_eq_true'] at h
  have hall := List.all_eq_true.mp h.2
  have hk := hall k (List.mem_range.mpr h2)
  simp only [Bool.or_eq_true, decide_eq_true_eq, Bool.not_eq_true'] at hk
  rcases hk with (hk | hk) | hk
  · subst hk
    exact absurd h1 (by decide)
  · rw [hw] at hk
    exact absurd hk (by decide)
  · exact hk

theorem matchAt_append_cases {q x y : List Char} (hx : x ≠ [])
    (hy : y = [] ∨ isWordChar (y.headD 'a') = false)
    (hm : matchAt q (x ++ y) = true) :
    matchAt q x = true ∨ spillMatch q x = true := by
  rcases Bool.and_eq_true_iff.mp hm with ⟨hm1, hbnd⟩
  rcases Bool.and_eq_true_iff.mp hm1 with ⟨hne, hpre⟩
  by_cases hlen : q.length ≤ x.length
  · left
    have hpx : prefixCI q x = true := by
      rw [← prefixCI_of_append y q x hlen]
      exact hpre
    have hbx : boundaryAt (x.drop q.length) = true := by
      by_cases heq : q.length = x.length
      · rw [heq, List.drop_length]
        rfl
      · have hlt : q.length < x.length := by omega
        have hdx : (x ++ y).drop q.length = x.drop q.length ++ y :=
          List.drop_append_of_le_length hlen
        have hxd : x.drop q.length ≠ [] := by
          intro h0
          have := congrArg List.length h0
          simp only [List.length_drop, List.length_nil] at this
          omega
        rw [hdx, boundaryAt_append _ _ hxd] at hbnd
        exact hbnd
    simp [matchAt, hne, hpx, hbx]
  · right
    have hql : x.length < q.length := by omega
    have hsplit := prefixCI_split y x q hql
    rw [hsplit] at hpre
    rcases Bool.and_eq_true_iff.mp hpre with ⟨hp1, hp2⟩
    have hdq : q.drop x.length = q.getD x.length 'a' :: q.drop (x.length + 1) :=
      drop_cons_getD q x.length hql
    rcases hy with rfl | hy
    · rw [hdq] at hp2
      exact absurd hp2 (by simp [prefixCI])
    · cases y with
      | nil => exact absurd hy (by decide)
      | cons d ds =>
        simp only [List.headD_cons] at hy
        rw [hdq] at hp2
        rcases Bool.and_eq_true_iff.mp hp2 with ⟨hci, -⟩
        have hwq : isWordChar (q.getD x.length 'a') = false := by
          have hw := charCI_word hci
          rw [hy] at hw
          exact hw.symm
        have hwq2 : isWordChar (q[x.length]) = false := by
          rwa [List.getD_eq_getElem?_getD, List.getElem?_eq_getElem hql] at hwq
        simp [spillMatch, hql, hp1, hwq, hwq2]

theorem hasMatch_append {q : List Char} {y : List Char}
    (hy : y = [] ∨ isWordChar (y.headD 'a') = false) :
    ∀ (x : List Char) (pw : Bool), hasMatch q pw x = false → hasSpill q pw x = false →
      hasMatch q (flagEnd x pw) y = false → hasMatch q pw (x ++ y) = false := by
  intro x
  induction x with
  | nil =>
    intro pw _ _ h3
    exact h3
  | cons c cs ih =>
    intro pw h1 h2 h3
    rw [hasMatch_cons] at h1
    rw [hasSpill_cons] at h2
    rcases Bool.or_eq_false_iff.mp h1 with ⟨h1a, h1b⟩
    rcases Bool.or_eq_false_iff.mp h2 with ⟨h2a, h2b⟩
    have hrec := ih (isWordChar c) h1b h2b h3
    rw [List.cons_append, hasMatch_cons]
    apply Bool.or_eq_false_iff.mpr
    refine ⟨?_, hrec⟩
    cases hpw : pw
    · simp only [Bool.not_false, Bool.true_and]
      by_cases hm : matchAt q (c :: (cs ++ y)) = true
      · exfalso
        rw [hpw] at h1a h2a
        simp only [Bool.not_false, Bool.true_and] at h1a h2a
        rcases matchAt_append_cases (x := c :: cs) (by simp) hy
            (by rw [List.cons_append]; exact hm) with hc | hc
        · rw [h1a] at hc
          exact absurd hc (by decide)
        · rw [h2a] at hc
          exact absurd hc (by decide)
      · simpa using hm
    · simp

theorem wordSub_nil (p r : List Char) (pw : Bool) : wordSub p r pw [] = [] := by
  rw [wordSub]

theorem wordSub_fire {p r : List Char} {pw : Bool} {c : Char} {cs : List Char}
    (h : (!pw && matchAt p (c :: cs)) = true) :
    wordSub p r pw (c :: cs) =
      r ++ wordSub p r (isWordChar (p.getLastD ' ')) (List.drop p.length (c :: cs)) := by
  rw [wordSub]
  rw [dif_pos h]

theorem wordSub_copy {p r : List Char} {pw : Bool} {c : Char} {cs : List Char}
    (h : (!pw && matchAt p (c :: cs)) = false) :
    wordSub p r pw (c :: cs) = c :: wordSub p r (isWordChar c) cs := by
  rw [wordSub]
  rw [dif_neg (by simp [h])]

theorem wordSub_id {p r : List Char} : ∀ (s : List Char) (pw : Bool),
    hasMatch p pw s = false → wordSub p r pw s = s := by
  intro s
  induction s with
  | nil => intro pw _; exact wordSub_nil p r pw
  | cons c cs ih =>
    intro pw h
    rw [hasMatch_cons] at h
    rcases Bool.or_eq_false_iff.mp h with ⟨ha, hb⟩
    rw [wordSub_copy ha, ih (isWordChar c) hb]

theorem wordSub_head_bnd {p r : List Char} (hp : isWordChar (p.headD 'a') = true) (pw : Bool)
    (v : List Char) (hv : boundaryAt v = true) :
    wordSub p r pw v = [] ∨ isWordChar ((wordSub p r pw v).headD 'a') = false := by
  cases v with
  | nil =>
    left
    exact wordSub_nil p r pw
  | cons z zs =>
    have hz : isWordChar z = false := by simpa [boundaryAt] using hv
    right
    rw [wordSub_copy (by simp [matchAt_head_not_word hp hz])]
    simpa using hz

theorem prefixCI_cons (a : Char) (l : List Char) (c : Char) (m : List Char) :
    prefixCI (a :: l) (c :: m) = (charCI a c && prefixCI l m) := rfl

theorem wordShaped_head {w : List Char} (h : wordShaped w = true) :
    isWordChar (w.headD 'a') = true := (Bool.and_eq_true_iff.mp h).2

theorem wordShaped_ne {w : List Char} (h : wordShaped w = true) : w ≠ [] := by
  rcases Bool.and_eq_true_iff.mp h with ⟨h1, -⟩
  cases w with
  | nil => exact absurd h1 (by decide)
  | cons a b => simp

theorem win {q p r : List Char} (hq : wordShaped q = true) (hp : wordShaped p = true)
    (hr : wordShaped r = true) (hsafe : subSafe q r = true) :
    ∀ (s : List Char) (pw : Bool) (k : Nat), 1 ≤ k → k ≤ q.length →
      pw = isWordChar (q.getD (k - 1) 'a') →
      prefixCI (q.drop k) (wordSub p r pw s) = true →
      boundaryAt ((wordSub p r pw s).drop (q.length - k)) = true →
      prefixCI (q.drop k) s = true ∧ boundaryAt (s.drop (q.length - k)) = true := by
  intro s
  induction s with
  | nil =>
    intro pw k hk1 hk2 _ hpre _
    rw [wordSub_nil] at hpre
    by_cases hk : k = q.length
    · constructor
      · rw [hk, List.drop_length]
        rfl
      · rw [List.drop_nil]
        rfl
    · have hklt : k < q.length := by omega
      rw [drop_cons_getD q k hklt] at hpre
      exact absurd hpre (by simp [prefixCI])
  | cons c cs ih =>
    intro pw k hk1 hk2 hflag hpre hbnd
    by_cases hfire : (!pw && matchAt p (c :: cs)) = true
    · -- a fire at this position: the window would have to continue into the
      -- replacement, which the safety conditions exclude
      exfalso
      have hpw : pw = false := by
        rcases Bool.and_eq_true_iff.mp hfire with ⟨h1, -⟩
        simpa using h1
      have hqk : isWordChar (q.getD (k - 1) 'a') = false := by
        rw [hpw] at hflag
        exact hflag.symm
      obtain ⟨r0, rrest, hrs⟩ : ∃ r0 rrest, r = r0 :: rrest := by
        cases r with
        | nil => exact absurd (wordShaped_ne hr) (by simp)
        | cons a b => exact ⟨a, b, rfl⟩
      have hr0 : isWordChar r0 = true := by
        have := wordShaped_head hr
        rw [hrs] at this
        simpa using this
      rw [wordSub_fire hfire] at hpre hbnd
      by_cases hk : k = q.length
      · rw [hk, Nat.sub_self, List.drop_zero, hrs, List.cons_append] at hbnd
        simp only [boundaryAt, hr0] at hbnd
        exact absurd hbnd (by decide)
      · have hklt : k < q.length := by omega
        have htd : tailDanger (q.drop k) r = false := subSafe_tail hsafe k hk1 hklt hqk
        have hq2len : (q.drop k).length = q.length - k := List.length_drop k q
        by_cases hlen2 : (q.drop k).length ≤ r.length
        · have hpre2 : prefixCI (q.drop k) r = true := by
            rw [← prefixCI_of_append _ (q.drop k) r hlen2]
            exact hpre
          have hpt : prefixCI (q.drop k) (r.take (q.drop k).length) = true := by
            rw [← prefixCI_take_self]
            exact hpre2
          rw [tailDanger, if_pos hlen2] at htd
          rcases Bool.and_eq_false_iff.mp htd with h | h
          · rw [hpt] at h
            exact absurd h (by decide)
          · rcases Bool.or_eq_false_iff.mp h with ⟨hne2, hw2⟩
            have hlt2 : (q.drop k).length < r.length := by
              simp only [decide_eq_false_iff_not] at hne2
              omega
            have hwr : isWordChar (r.getD (q.drop k).length 'a') = true := by
              simpa using hw2
            rw [← hq2len] at hbnd
            rw [List.drop_append_of_le_length (by omega)] at hbnd
            rw [drop_cons_getD r (q.drop k).length hlt2, List.cons_append] at hbnd
            simp only [boundaryAt, hwr] at hbnd
            exact absurd hbnd (by decide)
        · have hlen2' : r.length < (q.drop k).length := by omega
          rw [prefixCI_split _ r (q.drop k) hlen2'] at hpre
          rcases Bool.and_eq_true_iff.mp hpre with ⟨hpa, hpb⟩
          have hdq2 : (q.drop k).drop r.length =
              (q.drop k).getD r.length 'a' :: (q.drop k).drop (r.length + 1) :=
            drop_cons_getD (q.drop k) r.length hlen2'
          have hvbnd : boundaryAt (List.drop p.length (c :: cs)) = true := by
            rcases Bool.and_eq_true_iff.mp hfire with ⟨-, hmp⟩
            exact (Bool.and_eq_true_iff.mp hmp).2
          rcases wordSub_head_bnd (wordShaped_head hp) (isWordChar (p.getLastD ' '))
              (List.drop p.length (c :: cs)) hvbnd with hO | hO
          · rw [hO, hdq2] at hpb
            exact absurd hpb (by simp [prefixCI])
          · cases hOv : wordSub p r (isWordChar (p.getLastD ' '))
                (List.drop p.length (c :: cs)) with
            | nil =>
              rw [hOv, hdq2] at hpb
              exact absurd hpb (by simp [prefixCI])
            | cons o os =>
              rw [hOv] at hpb hO
              simp only [List.headD_cons] at hO
              rw [hdq2, prefixCI_cons] at hpb
              rcases Bool.and_eq_true_iff.mp hpb with ⟨hci, -⟩
              have hwq2 : isWordChar ((q.drop k).getD r.length 'a') = false := by
                have hw := charCI_word hci
                rw [hO] at hw
                exact hw.symm
              rw [tailDanger, if_neg (by omega)] at htd
              rcases Bool.and_eq_false_iff.mp htd with h | h
              · rw [hpa] at h
                exact absurd h (by decide)
              · simp only [Bool.not_eq_false'] at h
                rw [hwq2] at h
                exact absurd h (by decide)
    · have hfire2 : (!pw && matchAt p (c :: cs)) = false := by
        cases hB : (!pw && matchAt p (c :: cs)) with
        | false => rfl
        | true => exact absurd hB hfire
      rw [wordSub_copy hfire2] at hpre hbnd
      by_cases hk : k = q.length
      · constructor
        · rw [hk, List.drop_length]
          rfl
        · rw [hk, Nat.sub_self, List.drop_zero] at hbnd ⊢
          exact hbnd
      · have hklt : k < q.length := by omega
        have hdq : q.drop k = q.getD k 'a' :: q.drop (k + 1) := drop_cons_getD q k hklt
        rw [hdq, prefixCI_cons] at hpre
        rcases Bool.and_eq_true_iff.mp hpre with ⟨hci, hpre2⟩
        have hwc : isWordChar c = isWordChar (q.getD ((k + 1) - 1) 'a') := by
          have := charCI_word hci
          simpa using this
        have hsub : q.length - k = (q.length - (k + 1)) + 1 := by omega
        rw [hsub, List.drop_succ_cons] at hbnd
        have ih2 := ih (isWordChar c) (k + 1) (by omega) (by omega) hwc hpre2 hbnd
        constructor
        · rw [hdq, prefixCI_cons, Bool.and_eq_true_iff]
          exact ⟨hci, ih2.1⟩
        · rw [hsub, List.drop_succ_cons]
          exact ih2.2

theorem main_sub_clean {q p r : List Char} (hq : wordShaped q = true)
    (hp : wordShaped p = true) (hr : wordShaped r = true) (hsafe : subSafe q r = true) :
    ∀ (n : Nat) (s : List Char), s.length ≤ n → ∀ (pw : Bool),
      (q = p ∨ hasMatch q pw s = false) →
      hasMatch q pw (wordSub p r pw s) = false := by
  intro n
  induction n with
  | zero =>
    intro s hlen pw _
    have hs : s = [] := List.length_eq_zero.mp (Nat.le_zero.mp hlen)
    subst hs
    rw [wordSub_nil]
    rfl
  | succ n ih =>
    intro s hlen pw hb
    cases s with
    | nil =>
      rw [wordSub_nil]
      rfl
    | cons c cs =>
      by_cases hfire : (!pw && matchAt p (c :: cs)) = true
      · have hpw : pw = false := by
          rcases Bool.and_eq_true_iff.mp hfire with ⟨h1, -⟩
          simpa using h1
        have hmp : matchAt p (c :: cs) = true := (Bool.and_eq_true_iff.mp hfire).2
        rcases Bool.and_eq_true_iff.mp hmp with ⟨hmp1, hmbnd⟩
        rcases Bool.and_eq_true_iff.mp hmp1 with ⟨hpne, hppre⟩
        have hplen : 1 ≤ p.length := by
          cases p with
          | nil => exact absurd hpne (by decide)
          | cons a b => simp
        have hplen2 : p.length ≤ (c :: cs).length := prefixCI_length_le hppre
        rw [wordSub_fire hfire]
        have hO := wordSub_head_bnd (r := r) (wordShaped_head hp)
          (isWordChar (p.getLastD ' ')) (List.drop p.length (c :: cs)) hmbnd
        have hbv : q = p ∨ hasMatch q (isWordChar (p.getLastD ' '))
            (List.drop p.length (c :: cs)) = false := by
          rcases hb with rfl | hclean
          · exact Or.inl rfl
          · right
            rw [hpw] at hclean
            have hdropped := hasMatch_drop (c :: cs) false p.length hplen hplen2 hclean
            have hflag : isWordChar ((c :: cs).getD (p.length - 1) 'a') =
                isWordChar (p.getLastD ' ') := by
              have hchar := prefixCI_getD p (c :: cs) hppre (p.length - 1) (by omega)
              have hw := charCI_word hchar
              rw [hw]
              congr 1
              exact (getLastD_eq_getD p (wordShaped_ne hp) ' ' 'a').symm
            rw [hflag] at hdropped
            exact hdropped
        have hvlen : (List.drop p.length (c :: cs)).length ≤ n := by
          simp only [List.length_drop, List.length_cons]
          simp only [List.length_cons] at hlen
          omega
        have hOclean := ih (List.drop p.length (c :: cs)) hvlen
          (isWordChar (p.getLastD ' ')) hbv
        have hOfl : hasMatch q (flagEnd r false) (wordSub p r (isWordChar (p.getLastD ' '))
            (List.drop p.length (c :: cs))) = false := by
          rcases hO with hO | hO
          · rw [hO]
            rfl
          · rw [hasMatch_flag_irrel (wordShaped_head hq) (Or.inr hO) (flagEnd r false)
              (isWordChar (p.getLastD ' '))]
            exact hOclean
        rw [hpw]
        exact hasMatch_append hO r false (subSafe_match hsafe) (subSafe_spill hsafe) hOfl
      · have hfire2 : (!pw && matchAt p (c :: cs)) = false := by
          cases hB : (!pw && matchAt p (c :: cs)) with
          | false => rfl
          | true => exact absurd hB hfire
        rw [wordSub_copy hfire2, hasMatch_cons]
        apply Bool.or_eq_false_iff.mpr
        constructor
        · cases hpw : pw with
          | true => simp
          | false =>
            simp only [Bool.not_false, Bool.true_and]
            by_cases hm : matchAt q (c :: wordSub p r (isWordChar c) cs) = true
            · exfalso
              rcases Bool.and_eq_true_iff.mp hm with ⟨hm1, hmb⟩
              rcases Bool.and_eq_true_iff.mp hm1 with ⟨hqne, hqpre⟩
              obtain ⟨q0, qrest, hqs⟩ : ∃ q0 qrest, q = q0 :: qrest := by
                cases q with
                | nil => exact absurd hqne (by decide)
                | cons a b => exact ⟨a, b, rfl⟩
              rw [hqs, prefixCI_cons] at hqpre
              rcases Bool.and_eq_true_iff.mp hqpre with ⟨hci, hqpre2⟩
              have hwc : isWordChar c = isWordChar (q.getD (1 - 1) 'a') := by
                have hw := charCI_word hci
                rw [hqs]
                simpa using hw
              have hmb2 : boundaryAt ((wordSub p r (isWordChar c) cs).drop
                  (q.length - 1)) = true := by
                rw [hqs] at hmb ⊢
                simp only [List.length_cons, List.drop_succ_cons] at hmb
                simpa using hmb
              have hqpre2' : prefixCI (q.drop 1) (wordSub p r (isWordChar c) cs) = true := by
                rw [hqs]
                exact hqpre2
              have hwin := win hq hp hr hsafe cs (isWordChar c) 1 (by omega)
                (by rw [hqs]; simp) hwc hqpre2' hmb2
              have hmatchin : matchAt q (c :: cs) = true := by
                rw [hqs]
                simp only [matchAt, List.isEmpty_cons, Bool.not_false, Bool.true_and,
                  prefixCI_cons]
                rw [hci]
                have h1 : prefixCI qrest cs = true := by
                  have := hwin.1
                  rw [hqs] at this
                  simpa using this
                rw [h1]
                simp only [Bool.true_and, List.length_cons, List.drop_succ_cons]
                have h2 := hwin.2
                rw [hqs] at h2
                simp only [List.length_cons] at h2
                simpa using h2
              rcases hb with rfl | hclean
              · rw [hmatchin] at hfire2
                rw [hpw] at hfire2
                exact absurd hfire2 (by decide)
              · rw [hpw] at hclean
                rw [hasMatch_cons] at hclean
                rcases Bool.or_eq_false_iff.mp hclean with ⟨ha, -⟩
                simp only [Bool.not_false, Bool.true_and] at ha
                rw [hmatchin] at ha
                exact absurd ha (by decide)
            · simpa using hm
        · have hbcs : q = p ∨ hasMatch q (isWordChar c) cs = false := by
            rcases hb with rfl | hclean
            · exact Or.inl rfl
            · right
              rw [hasMatch_cons] at hclean
              exact (Bool.or_eq_false_iff.mp hclean).2
          exact ih cs (by simp only [List.length_cons] at hlen; omega) (isWordChar c) hbcs

theorem fold_preserve_clean {q : List Char} (hq : wordShaped q = true) :
    ∀ (L : List (List Char × List Char)) (s : List Char),
      (∀ pr ∈ L, wordShaped pr.1 = true ∧ wordShaped pr.2 = true) →
      (∀ pr ∈ L, subSafe q pr.2 = true) →
      hasMatch q false s = false →
      hasMatch q false (L.foldl (fun t pr => wordSub pr.1 pr.2 false t) s) = false := by
  intro L
  induction L with
  | nil =>
    intro s _ _ h
    simpa using h
  | cons pr0 L ih =>
    intro s hws hsafe hclean
    rw [List.foldl_cons]
    refine ih (wordSub pr0.1 pr0.2 false s)
      (fun pr hpr => hws pr (List.mem_cons_of_mem _ hpr))
      (fun pr hpr => hsafe pr (List.mem_cons_of_mem _ hpr)) ?_
    have h0 := hws pr0 (List.mem_cons_self _ _)
    exact main_sub_clean hq h0.1 h0.2 (hsafe pr0 (List.mem_cons_self _ _))
      s.length s le_rfl false (Or.inr hclean)

theorem fold_all_clean :
    ∀ (L : List (List Char × List Char)) (s : List Char),
      (∀ pr ∈ L, wordShaped pr.1 = true ∧ wordShaped pr.2 = true) →
      (∀ qr ∈ L, ∀ pr ∈ L, subSafe qr.1 pr.2 = true) →
      ∀ qr ∈ L,
        hasMatch qr.1 false (L.foldl (fun t pr => wordSub pr.1 pr.2 false t) s) = false := by
  intro L
  induction L with
  | nil =>
    intro s _ _ qr hqr
    exact absurd hqr (List.not_mem_nil qr)
  | cons pr0 L ih =>
    intro s hws hsafe qr hqr
    rw [List.foldl_cons]
    rcases List.mem_cons.mp hqr with rfl | hmem
    · have h0 := hws qr (List.mem_cons_self _ _)
      have hstart : hasMatch qr.1 false (wordSub qr.1 qr.2 false s) = false :=
        main_sub_clean h0.1 h0.1 h0.2
          (hsafe qr (List.mem_cons_self _ _) qr (List.mem_cons_self _ _))
          s.length s le_rfl false (Or.inl rfl)
      exact fold_preserve_clean h0.1 L _
        (fun pr hpr => hws pr (List.mem_cons_of_mem _ hpr))
        (fun pr hpr => hsafe qr (List.mem_cons_self _ _) pr (List.mem_cons_of_mem _ hpr))
        hstart
    · exact ih (wordSub pr0.1 pr0.2 false s)
        (fun pr hpr => hws pr (List.mem_cons_of_mem _ hpr))
        (fun a ha pr hpr => hsafe a (List.mem_cons_of_mem _ ha) pr (List.mem_cons_of_mem _ hpr))
        qr hmem

theorem fold_id :
    ∀ (L : List (List Char × List Char)) (s : List Char),
      (∀ qr ∈ L, hasMatch qr.1 false s = false) →
      L.foldl (fun t pr => wordSub pr.1 pr.2 false t) s = s := by
  intro L
  induction L with
  | nil =>
    intro s _
    rfl
  | cons pr0 L ih =>
    intro s hclean
    rw [List.foldl_cons, wordSub_id s false (hclean pr0 (List.mem_cons_self _ _))]
    exact ih s (fun qr hqr => hclean qr (List.mem_cons_of_mem _ hqr))

theorem spam_table_safe_eval : spamTableSafe = true := by decide

theorem spam_ws : ∀ pr ∈ spam_words_map, wordShaped pr.1 = true ∧ wordShaped pr.2 = true := by
  have h := spam_table_safe_eval
  simp only [spamTableSafe, Bool.and_eq_true, List.all_eq_true] at h
  intro pr hpr
  exact h.1 pr hpr

theorem spam_safe :
    ∀ qr ∈ spam_words_map, ∀ pr ∈ spam_words_map, subSafe qr.1 pr.2 = true := by
  have h := spam_table_safe_eval
  simp only [spamTableSafe, Bool.and_eq_true, List.all_eq_true] at h
  intro qr hqr pr hpr
  exact h.2 qr hqr pr hpr

theorem smart_filter_of_ne {t : String} (h : t ≠ "") :
    smart_filter t =
      ⟨spam_words_map.foldl (fun s pr => wordSub pr.1 pr.2 false s) t.data⟩ := by
  unfold smart_filter
  rw [if_neg h]

theorem smart_filter_idem (t : String) : smart_filter (smart_filter t) = smart_filter t := by
  by_cases h1 : smart_filter t = ""
  · rw [h1]
    rfl
  · have h0 : t ≠ "" := by
      intro hc
      exact h1 (by rw [hc]; rfl)
    have hu := smart_filter_of_ne h0
    rw [hu] at h1 ⊢
    rw [smart_filter_of_ne h1]
    congr 1
    exact fold_id spam_words_map _
      (fold_all_clean spam_words_map t.data spam_ws spam_safe)

theorem invalid_pitch_fixed : smart_filter "Invalid pitch type" = "Invalid pitch type" := by
  have hne : ("Invalid pitch type" : String) ≠ "" := by decide
  rw [smart_filter_of_ne hne]
  have hall : spam_words_map.all
      (fun qr => !hasMatch qr.1 false ("Invalid pitch type".data)) = true := by decide
  have hclean : ∀ qr ∈ spam_words_map,
      hasMatch qr.1 false ("Invalid pitch type".data) = false := by
    intro qr hqr
    have := List.all_eq_true.mp hall qr hqr
    simpa using this
  rw [fold_id spam_words_map _ hclean]

/-- C9: the spam-word substitution of app.py lines 26 to 45 is
idempotent — `smart_filter (smart_filter t) = smart_filter t` for every
string `t` — because no replacement string of the substitution table
itself contains a match of any spam-word pattern; consequently applying
the filter again to the string returned by `groq_ai_generate_email`
(already-filtered on the success path, a fixed point on every other
path) leaves it unchanged. -/
theorem c9_smart_filter_idempotent :
    (∀ t : String, smart_filter (smart_filter t) = smart_filter t) ∧
    (∀ qr ∈ spam_words_map, ∀ pr ∈ spam_words_map,
      hasMatch qr.1 false pr.2 = false) ∧
    (∀ (api_key : String) (resp : Option String) (pitch_type : String),
      smart_filter (groq_ai_generate_email api_key resp pitch_type).result =
        (groq_ai_generate_email api_key resp pitch_type).result) := by
  refine ⟨smart_filter_idem, ?_, ?_⟩
  · intro qr hqr pr hpr
    exact subSafe_match (spam_safe qr hqr pr hpr)
  · intro api_key resp pitch_type
    unfold groq_ai_generate_email
    by_cases hk : api_key = ""
    · rw [if_pos hk]
      rfl
    · rw [if_neg hk]
      by_cases hp : pyLower pitch_type = "professional" ∨ pyLower pitch_type = "results" ∨
          pyLower pitch_type = "data" ∨ pyLower pitch_type = "linkedin"
      · rw [if_pos hp]
        cases resp with
        | some content => exact smart_filter_idem content
        | none => rfl
      · rw [if_neg hp]
        exact invalid_pitch_fixed
